import Mathlib

/-!
Verification development for the realre_ingestion core: the SCD2 temporal
upsert engine (`src/manager/db.py`), the schedule engine
(`src/manager/scheduler.py`) and the job orchestrator (`src/manager/core.py`),
shallowly embedded in Lean.
-/

namespace Realre

/-- Decidable equality for `Except`, used to evaluate the embedded fallible
operations on concrete inputs. -/
instance {ε α : Type} [DecidableEq ε] [DecidableEq α] :
    DecidableEq (Except ε α) := fun x y =>
  match x, y with
  | .ok a, .ok b =>
    if h : a = b then isTrue (by rw [h])
    else isFalse (by intro hh; cases hh; exact h rfl)
  | .error a, .error b =>
    if h : a = b then isTrue (by rw [h])
    else isFalse (by intro hh; cases hh; exact h rfl)
  | .ok _, .error _ => isFalse (by intro hh; cases hh)
  | .error _, .ok _ => isFalse (by intro hh; cases hh)

/-! ## Temporal upsert engine (src/manager/db.py)

A record (a Python `Mapping[str, Any]`) is modelled as an association list
from field names to optional string values.  Python values are arbitrary but
the adapter only ever applies `str(...)` to them, so values are modelled
already stringified; a `none` value covers both an absent field and a field
holding Python `None` (`record.get(field)` returns `None` in both cases).
-/

/-- A record supplied to the upsert engine: field name to optional value. -/
abbrev Rec := List (String × Option String)

/-- `record.get(field)`: `none` when the field is absent or holds `None`. -/
def recGet (r : Rec) (f : String) : Option String :=
  match r.lookup f with
  | none => none
  | some v => v

/-- Models `DBAdapter._compute_hash`: the digest input is the concatenation
of the stringified attribute values in declared field order, with `""` for
missing / `None` values and no separator between fields.  The SHA-256 digest
itself is a fixed injective function of this byte string (collision-freeness
assumed), so digest equality in the code is equality of these strings. -/
def compute_hash (r : Rec) (fields : List String) : String :=
  String.join (fields.map fun f => (recGet r f).getD "")

/-- One row of a dynamically created SCD2 table: the key column values (in
key-field order, `TEXT NOT NULL`), the attribute column values (nullable),
the validity interval, the current flag (an `INTEGER`), and the row hash. -/
structure Scd2Row where
  id : Nat
  keyVals : List String
  attrVals : List (Option String)
  valid_from : String
  valid_to : String
  is_current : Nat
  row_hash : String
deriving DecidableEq, Repr

/-- An SCD2 table: rows in insertion order (so in ascending `id` order) and
the next value of the `SERIAL` id column. -/
structure Scd2Table where
  rows : List Scd2Row
  nextId : Nat
deriving DecidableEq, Repr

/-- A freshly created (empty) SCD2 table; `SERIAL` ids start at 1. -/
def Scd2Table.empty : Scd2Table := { rows := [], nextId := 1 }

/-- The far-future `valid_to` sentinel used for current rows. -/
def farFuture : String := "9999-12-31T00:00:00+00:00"

/-- The predicate of the current-row lookup: the row's key columns equal the
given key values and `is_current = 1`. -/
def isCurrentFor (k : List String) (r : Scd2Row) : Bool :=
  decide (r.keyVals = k ∧ r.is_current = 1)

/-- Models the `SELECT ... WHERE <key match> AND is_current=1 ORDER BY id
DESC LIMIT 1`: the matching row with the largest id.  Rows are kept in
ascending id order, so this is the last matching row. -/
def findCurrent (rows : List Scd2Row) (k : List String) : Option Scd2Row :=
  rows.foldl (fun acc r => if isCurrentFor k r then some r else acc) none

/-- Models the `UPDATE ... SET valid_to=%s, is_current=0 WHERE id=%s`. -/
def closeRow (rows : List Scd2Row) (rid : Nat) (now : String) : List Scd2Row :=
  rows.map fun r =>
    if r.id = rid then { r with valid_to := now, is_current := 0 } else r

/-- `key_values = [row[field] for field in key_fields]`.  A missing key field
raises `KeyError` and a `None` key value violates the `NOT NULL` key-column
constraint at insert time; both abort the call and are modelled as `none`. -/
def keyValsOf (r : Rec) (key_fields : List String) : Option (List String) :=
  key_fields.mapM (recGet r)

/-- Models the `INSERT` of a new current row: appended with the next serial
id, `valid_from = now`, the far-future `valid_to` sentinel and
`is_current = 1`. -/
def insertNewRow (tbl : Scd2Table) (keyVals : List String)
    (attrVals : List (Option String)) (now row_hash : String) : Scd2Table :=
  { rows := tbl.rows ++
      [{ id := tbl.nextId, keyVals := keyVals, attrVals := attrVals,
         valid_from := now, valid_to := farFuture, is_current := 1,
         row_hash := row_hash }],
    nextId := tbl.nextId + 1 }

/-- The body of the per-record loop of `DBAdapter.upsert_scd2`: look up the
current row for the record's key; if it exists with an equal hash, do
nothing; if it exists with a different hash, close it and insert a new
current row; if it does not exist, insert a new current row.  The second
component threads the `inserted` counter. -/
def upsertOne (key_fields attrFields : List String) (now : String)
    (st : Scd2Table × Nat) (row : Rec) : Option (Scd2Table × Nat) :=
  match keyValsOf row key_fields with
  | none => none
  | some key_values =>
    match findCurrent st.1.rows key_values with
    | some current =>
      if current.row_hash = compute_hash row attrFields then
        some st
      else
        some (insertNewRow { rows := closeRow st.1.rows current.id now,
                             nextId := st.1.nextId }
                key_values (attrFields.map (recGet row)) now
                (compute_hash row attrFields),
              st.2 + 1)
    | none =>
        some (insertNewRow st.1 key_values (attrFields.map (recGet row))
                now (compute_hash row attrFields),
              st.2 + 1)

/-- The attribute-field default: every field of the first record that is not
a key field (`[f for f in rows[0].keys() if f not in key_fields]`). -/
def defaultAttrFields (r0 : Rec) (key_fields : List String) : List String :=
  (r0.map Prod.fst).filter fun f => decide (f ∉ key_fields)

/-- Models `DBAdapter.upsert_scd2`: an empty batch returns 0 without touching
the table; otherwise the attribute fields default from the first record when
the given list is empty (Python `None` and `[]` collapse), and the records
are processed in order, sharing a single `now` timestamp computed once per
call.  Returns the updated table and the `inserted` count. -/
def upsert_scd2 (tbl : Scd2Table) (records : List Rec)
    (key_fields : List String) (attribute_fields : List String)
    (now : String) : Option (Scd2Table × Nat) :=
  match records with
  | [] => some (tbl, 0)
  | r0 :: _ =>
    let attrFields :=
      if attribute_fields.isEmpty then defaultAttrFields r0 key_fields
      else attribute_fields
    records.foldlM (upsertOne key_fields attrFields now) (tbl, 0)

/-- One in-process call to `upsert_scd2` against a fixed table whose schema
(key fields) was fixed at creation: the batch, the attribute-field argument
and the call's timestamp. -/
structure UpsertCall where
  records : List Rec
  attribute_fields : List String
  now : String
deriving DecidableEq, Repr

/-- A sequence of `upsert_scd2` calls against the same table, stopping at the
first aborted call. -/
def applyCalls (key_fields : List String) :
    Scd2Table → List UpsertCall → Option Scd2Table
  | tbl, [] => some tbl
  | tbl, c :: cs =>
    match upsert_scd2 tbl c.records key_fields c.attribute_fields c.now with
    | none => none
    | some (tbl2, _) => applyCalls key_fields tbl2 cs

/-- The number of rows of the table that are current for key values `k`. -/
def currentCount (rows : List Scd2Row) (k : List String) : Nat :=
  rows.countP (isCurrentFor k)

/-- The SCD2 invariant: for every natural key, at most one current row. -/
def atMostOneCurrent (tbl : Scd2Table) : Prop :=
  ∀ k : List String, currentCount tbl.rows k ≤ 1

/-! ## Schedule engine (src/manager/scheduler.py)

Instants are aware UTC datetimes, modelled as integer microseconds since the
Unix epoch (Python datetimes have microsecond resolution); `timedelta`
arithmetic, `date()` truncation, `combine` and `weekday()` become integer
arithmetic on this representation.  The `time` field of a schedule dict is
modelled post-parse as an (hour, minute) pair; `_parse_time` feeds the parts
to `datetime.time`, which rejects out-of-range values. -/

/-- A UTC instant: microseconds since the Unix epoch. -/
abbrev Instant := Int

/-- Microseconds per second. -/
def usPerSecond : Int := 1000000

/-- Microseconds per day. -/
def usPerDay : Int := 86400 * usPerSecond

/-- A recurrence-policy descriptor: the `schedule` dict of an entry, with one
optional slot per key the scheduler reads. -/
structure ScheduleDict where
  type : Option String
  seconds : Option Int
  time : Option (Nat × Nat)
  weekday : Option String
  expression : Option String
deriving DecidableEq, Repr

/-- The time-of-day in microseconds; `datetime.time` rejects hours outside
0..23 and minutes outside 0..59 with a `ValueError`. -/
def parse_time_us (t : Nat × Nat) : Option Int :=
  if t.1 < 24 ∧ t.2 < 60 then
    some (((t.1 * 3600 + t.2 * 60 : Nat) : Int) * 1000000)
  else none

/-- Models `_weekday_to_int`: Monday is 0; an unknown name raises
(`KeyError`), modelled as `none`. -/
def weekday_to_int (value : String) : Option Int :=
  match value.toLower with
  | "monday" => some 0
  | "tuesday" => some 1
  | "wednesday" => some 2
  | "thursday" => some 3
  | "friday" => some 4
  | "saturday" => some 5
  | "sunday" => some 6
  | _ => none

/-- A pluggable cron-expression evaluator (croniter's `get_next`, when the
library is importable); `none` models a process without croniter. -/
abbrev CronEval := String → Instant → Instant

/-- Models `ScheduledJob.compute_next_run`: dispatch on the schedule dict's
`type` (default `"interval"`).  Interval adds the configured seconds (default
300); daily combines today's date with the time of day and rolls to tomorrow
when that instant is `≤ now`; weekly advances to the next matching weekday
(day 0 of the epoch is a Thursday, weekday 3) and rolls a week when `≤ now`;
cron delegates to the evaluator and raises when none is available; an
unrecognized type returns `now` unchanged.  Raised exceptions (missing or
malformed required fields, missing croniter) are modelled as `.error`. -/
def compute_next_run (sched : ScheduleDict) (cronEval : Option CronEval)
    (now : Instant) : Except String Instant :=
  let stype := sched.type.getD "interval"
  if stype = "interval" then
    .ok (now + sched.seconds.getD 300 * usPerSecond)
  else if stype = "daily" then
    match sched.time with
    | none => .error "KeyError: time"
    | some t =>
      match parse_time_us t with
      | none => .error "ValueError: invalid time"
      | some tod =>
        let candidate := now.fdiv usPerDay * usPerDay + tod
        .ok (if candidate ≤ now then candidate + usPerDay else candidate)
  else if stype = "weekly" then
    match sched.time, sched.weekday with
    | some t, some wd =>
      (match parse_time_us t, weekday_to_int wd with
       | some tod, some target =>
         let nowDay := now.fdiv usPerDay
         let days_ahead := (target - (nowDay + 3).fmod 7).fmod 7
         let candidate := (nowDay + days_ahead) * usPerDay + tod
         .ok (if candidate ≤ now then candidate + 7 * usPerDay else candidate)
       | _, _ => .error "ValueError: invalid weekly schedule")
    | _, _ => .error "KeyError: time or weekday"
  else if stype = "cron" then
    let expression := sched.expression.getD "0 0 * * *"
    match cronEval with
    | none => .error "croniter library is required for cron schedules"
    | some ev => .ok (ev expression now)
  else
    .ok now

/-- A scheduled job, mirroring the `ScheduledJob` dataclass (argument values
modelled stringified, as for records). -/
structure ScheduledJob where
  name : String
  args : List (String × String)
  schedule : ScheduleDict
  next_run : Instant
  description : String
  enabled : Bool
  depends_on : List String
deriving DecidableEq, Repr

/-- `ScheduledJob.due`: `now >= self.next_run`. -/
def ScheduledJob.due (j : ScheduledJob) (now : Instant) : Bool :=
  decide (j.next_run ≤ now)

/-- `ScheduledJob.mark_executed`: overwrite `next_run` with the recomputed
next run; an exception from `compute_next_run` propagates. -/
def mark_executed (cronEval : Option CronEval) (now : Instant)
    (j : ScheduledJob) : Except String ScheduledJob :=
  match compute_next_run j.schedule cronEval now with
  | .error e => .error e
  | .ok t => .ok { j with next_run := t }

/-- Models `Scheduler.due_jobs`: filter the due jobs, recompute each one's
`next_run` in place, and return them.  Python mutates the shared job objects,
so the returned list holds the updated jobs and the scheduler's list is
updated at the same positions; both are derived here from the same pure
`mark_executed` on the pre-call job values (due-ness is decided on the
pre-call `next_run`).  An exception while recomputing propagates. -/
def due_jobs (cronEval : Option CronEval) (jobs : List ScheduledJob)
    (now : Instant) : Except String (List ScheduledJob × List ScheduledJob) := do
  let ready := jobs.filter (fun j => j.due now)
  let ready2 ← ready.mapM (mark_executed cronEval now)
  let jobs2 ← jobs.mapM (fun j =>
    if j.due now then mark_executed cronEval now j else .ok j)
  return (ready2, jobs2)

/-- One entry of the declarative schedule document, with one optional slot
per key `Scheduler.from_file` reads. -/
structure ScheduleEntry where
  name : Option String
  args : Option (List (String × String))
  schedule : Option ScheduleDict
  description : Option String
  enabled : Option Bool
  depends_on : Option (List String)
deriving DecidableEq, Repr

/-- The default schedule dict for entries without one. -/
def defaultSchedule : ScheduleDict :=
  { type := some "interval", seconds := some 300, time := none,
    weekday := none, expression := none }

/-- Models the entry loop of `Scheduler.from_file` (after JSON parsing):
entries with `enabled` false are skipped before any other key is read; the
remaining entries become `ScheduledJob`s in order, with `next_run` defaulting
to the load-time instant (the dataclass default factory).  A retained entry
without a `name` raises (`KeyError`), modelled as `.error`. -/
def from_file_entries (loadNow : Instant) :
    List ScheduleEntry → Except String (List ScheduledJob)
  | [] => .ok []
  | e :: es =>
    if (e.enabled.getD true) = false then from_file_entries loadNow es
    else
      match e.name with
      | none => .error "KeyError: name"
      | some nm =>
        match from_file_entries loadNow es with
        | .error err => .error err
        | .ok rest =>
          .ok ({ name := nm, args := e.args.getD [],
                 schedule := e.schedule.getD defaultSchedule,
                 next_run := loadNow, description := e.description.getD "",
                 enabled := e.enabled.getD true,
                 depends_on := e.depends_on.getD [] } :: rest)

/-! ## Job orchestrator (src/manager/core.py)

`IngestionManager.run_once` (sequential mode) iterates over the due jobs,
resolving each job's callable from the registry and then running it wrapped
in history logging.  A job callable is modelled by its observable behaviour:
it either returns (with an optional `row_count`) or raises. -/

/-- The observable behaviour of a registered job callable. -/
inductive JobBehavior where
  | succeeds (row_count : Option Nat)
  | raises (msg : String)
deriving DecidableEq, Repr

/-- A history-ledger event (the fields the orchestrator claims depend on). -/
structure HistoryEvent where
  job_name : String
  event_type : String
  status : String
  row_count : Option Nat
deriving DecidableEq, Repr

/-- The externally supplied job registry (`JOB_REGISTRY`). -/
abbrev Registry := List (String × JobBehavior)

/-- Models `IngestionManager._get_job_callable`: a name lookup against the
registry; an unknown name raises immediately (the fatal configuration
error), modelled as `.error`. -/
def get_job_callable (registry : Registry) (name : String) :
    Except String JobBehavior :=
  match registry.lookup name with
  | some b => .ok b
  | none => .error ("Unknown job " ++ name)

/-- Models `IngestionManager._run_job`: append a `job_start` event, invoke
the callable, then append a `job_end` event on success or a `job_error`
event (status failed) when the callable raises — that exception is swallowed
here. -/
def run_job (name : String) (b : JobBehavior) (hist : List HistoryEvent) :
    List HistoryEvent :=
  let hist1 := hist ++
    [{ job_name := name, event_type := "job_start", status := "started",
       row_count := none }]
  match b with
  | .succeeds rc => hist1 ++
      [{ job_name := name, event_type := "job_end", status := "success",
         row_count := rc }]
  | .raises _ => hist1 ++
      [{ job_name := name, event_type := "job_error", status := "failed",
         row_count := none }]

/-- Models the sequential dispatch loop of `IngestionManager.run_once` over
the due jobs: resolve each callable, then run it.  An unresolved name stops
the loop at once — the error escapes (second component) and no event is
written for that job; history written for earlier jobs persists. -/
def run_once_dispatch (registry : Registry) :
    List ScheduledJob → List HistoryEvent → List HistoryEvent × Option String
  | [], hist => (hist, none)
  | j :: rest, hist =>
    match get_job_callable registry j.name with
    | .error e => (hist, some e)
    | .ok b => run_once_dispatch registry rest (run_job j.name b hist)

/-! ## Helper lemmas about the current-row lookup and the row counts -/

/-- The current-row fold leaves its accumulator untouched when no row
matches. -/
theorem foldl_find_eq_self {k : List String} :
    ∀ (rows : List Scd2Row) (acc : Option Scd2Row),
      (∀ r ∈ rows, isCurrentFor k r = false) →
      rows.foldl (fun acc r => if isCurrentFor k r then some r else acc) acc
        = acc := by
  intro rows
  induction rows with
  | nil => intro acc _; rfl
  | cons r rs ih =>
    intro acc hall
    have hr : isCurrentFor k r = false := hall r (List.mem_cons_self r rs)
    simp only [List.foldl_cons, hr, if_neg Bool.false_ne_true]
    exact ih acc fun x hx => hall x (List.mem_cons_of_mem r hx)

/-- If no row of the table matches the key, the lookup returns nothing. -/
theorem findCurrent_eq_none_of_all {rows : List Scd2Row} {k : List String}
    (h : ∀ r ∈ rows, isCurrentFor k r = false) : findCurrent rows k = none :=
  foldl_find_eq_self rows none h

/-- Generalized inversion of the current-row fold returning `none`. -/
theorem foldl_find_eq_none {k : List String} :
    ∀ (rows : List Scd2Row) (acc : Option Scd2Row),
      rows.foldl (fun acc r => if isCurrentFor k r then some r else acc) acc
          = none →
      acc = none ∧ ∀ r ∈ rows, isCurrentFor k r = false := by
  intro rows
  induction rows with
  | nil => intro acc h; exact ⟨h, by simp⟩
  | cons r rs ih =>
    intro acc h
    simp only [List.foldl_cons] at h
    obtain ⟨hstep, hall⟩ := ih _ h
    by_cases hr : isCurrentFor k r = true
    · rw [if_pos hr] at hstep; cases hstep
    · rw [if_neg hr] at hstep
      refine ⟨hstep, ?_⟩
      intro x hx
      rcases List.mem_cons.mp hx with hx | hx
      · subst hx; exact Bool.eq_false_iff.mpr hr
      · exact hall x hx

/-- A failed lookup means no row of the table is current for the key. -/
theorem findCurrent_eq_none {rows : List Scd2Row} {k : List String}
    (h : findCurrent rows k = none) :
    ∀ r ∈ rows, isCurrentFor k r = false :=
  (foldl_find_eq_none rows none h).2

/-- Generalized inversion of the current-row fold returning a row. -/
theorem foldl_find_eq_some {k : List String} :
    ∀ (rows : List Scd2Row) (acc : Option Scd2Row) (c : Scd2Row),
      rows.foldl (fun acc r => if isCurrentFor k r then some r else acc) acc
          = some c →
      acc = some c ∨ (c ∈ rows ∧ isCurrentFor k c = true) := by
  intro rows
  induction rows with
  | nil => intro acc c h; exact Or.inl h
  | cons r rs ih =>
    intro acc c h
    simp only [List.foldl_cons] at h
    rcases ih _ c h with hstep | ⟨hmem, hcur⟩
    · by_cases hr : isCurrentFor k r = true
      · rw [if_pos hr] at hstep
        right
        cases hstep
        exact ⟨List.mem_cons_self r rs, hr⟩
      · rw [if_neg hr] at hstep
        exact Or.inl hstep
    · exact Or.inr ⟨List.mem_cons_of_mem r hmem, hcur⟩

/-- A successful lookup returns a row of the table that is current for the
key. -/
theorem findCurrent_eq_some {rows : List Scd2Row} {k : List String}
    {c : Scd2Row} (h : findCurrent rows k = some c) :
    c ∈ rows ∧ isCurrentFor k c = true := by
  rcases foldl_find_eq_some rows none c h with h | h
  · cases h
  · exact h

/-- The lookup on a table extended by one row inspects the new row first
(it has the largest id). -/
theorem findCurrent_append_singleton (rows : List Scd2Row) (x : Scd2Row)
    (k : List String) :
    findCurrent (rows ++ [x]) k =
      if isCurrentFor k x then some x else findCurrent rows k := by
  simp [findCurrent, List.foldl_append]

/-- Closing a row by id does not change key columns, and turns the current
flag of the affected rows off; pointwise effect on the current predicate. -/
theorem isCurrentFor_close (k : List String) (rid : Nat) (now : String)
    (r : Scd2Row) :
    isCurrentFor k
        (if r.id = rid then { r with valid_to := now, is_current := 0 }
         else r)
      = (isCurrentFor k r && !(r.id == rid)) := by
  by_cases hid : r.id = rid
  · simp [hid, isCurrentFor]
  · rw [if_neg hid]
    have hbeq : (r.id == rid) = false := beq_eq_false_iff_ne.mpr hid
    simp [hbeq]

/-- Counting current rows after an append of a single row. -/
theorem currentCount_append (rows : List Scd2Row) (x : Scd2Row)
    (k : List String) :
    currentCount (rows ++ [x]) k =
      currentCount rows k + (if isCurrentFor k x then 1 else 0) := by
  simp [currentCount, List.countP_append, List.countP_cons]

/-- Counting current rows after a close: only rows with a different id can
remain current. -/
theorem currentCount_closeRow (rows : List Scd2Row) (rid : Nat) (now : String)
    (k : List String) :
    currentCount (closeRow rows rid now) k =
      rows.countP (fun r => isCurrentFor k r && !(r.id == rid)) := by
  unfold currentCount closeRow
  rw [List.countP_map]
  apply List.countP_congr
  intro r _
  simp only [Function.comp]
  rw [isCurrentFor_close]

/-- Closing can only decrease the number of current rows for any key. -/
theorem currentCount_closeRow_le (rows : List Scd2Row) (rid : Nat)
    (now : String) (k : List String) :
    currentCount (closeRow rows rid now) k ≤ currentCount rows k := by
  rw [currentCount_closeRow]
  exact List.countP_mono_left fun r _ h => (Bool.and_elim_left h)

/-- A list of length at most one containing an element is that singleton. -/
theorem eq_singleton_of_length_le_one {α : Type} {l : List α} {a : α}
    (hlen : l.length ≤ 1) (ha : a ∈ l) : l = [a] := by
  match l, hlen, ha with
  | [x], _, ha =>
    have : a = x := List.mem_singleton.mp ha
    rw [this]

/-- Closing the unique current row of a key leaves no current row for that
key. -/
theorem currentCount_closeRow_eq_zero {rows : List Scd2Row}
    {k : List String} {cur : Scd2Row} (now : String)
    (hinv : currentCount rows k ≤ 1) (hmem : cur ∈ rows)
    (hcur : isCurrentFor k cur = true) :
    currentCount (closeRow rows cur.id now) k = 0 := by
  rw [currentCount_closeRow]
  rw [List.countP_eq_zero]
  intro r hr
  by_cases hrc : isCurrentFor k r = true
  · have hfil : rows.filter (isCurrentFor k) = [cur] := by
      apply eq_singleton_of_length_le_one
      · simpa [currentCount, List.countP_eq_length_filter] using hinv
      · exact List.mem_filter.mpr ⟨hmem, hcur⟩
    have : r ∈ rows.filter (isCurrentFor k) := List.mem_filter.mpr ⟨hr, hrc⟩
    rw [hfil] at this
    have hrcur : r = cur := List.mem_singleton.mp this
    simp [hrc, hrcur]
  · simp [Bool.eq_false_iff.mpr hrc]

/-- Counting current rows after the insert of a fresh current row: one more
for the inserted key, unchanged for every other key. -/
theorem currentCount_insertNewRow (tbl : Scd2Table) (kv : List String)
    (attrVals : List (Option String)) (now rh : String) (k : List String) :
    currentCount (insertNewRow tbl kv attrVals now rh).rows k =
      currentCount tbl.rows k + (if k = kv then 1 else 0) := by
  unfold insertNewRow
  rw [currentCount_append]
  congr 1
  by_cases hkk : k = kv
  · simp [isCurrentFor, hkk]
  · have : isCurrentFor k
        ({ id := tbl.nextId, keyVals := kv, attrVals := attrVals,
           valid_from := now, valid_to := farFuture, is_current := 1,
           row_hash := rh } : Scd2Row) = false := by
      simp [isCurrentFor]
      intro hh
      exact absurd hh.symm hkk
    rw [this]
    simp [hkk]

/-- Processing one record preserves the at-most-one-current invariant: a
no-op keeps the table, a fresh key appends the only current row for that
key, and a changed hash closes the unique current row before appending its
replacement. -/
theorem upsertOne_preserves {key_fields attrFields : List String}
    {now : String} {t : Scd2Table} {c : Nat} {row : Rec} {t2 : Scd2Table}
    {c2 : Nat}
    (h : upsertOne key_fields attrFields now (t, c) row = some (t2, c2))
    (hinv : atMostOneCurrent t) : atMostOneCurrent t2 := by
  unfold upsertOne at h
  cases hkv : keyValsOf row key_fields with
  | none => rw [hkv] at h; cases h
  | some kv =>
    rw [hkv] at h
    simp only at h
    cases hfc : findCurrent t.rows kv with
    | none =>
      rw [hfc] at h
      simp only [Option.some.injEq, Prod.mk.injEq] at h
      obtain ⟨ht2, _⟩ := h
      subst ht2
      intro k
      rw [currentCount_insertNewRow]
      by_cases hkk : k = kv
      · subst hkk
        have hzero : currentCount t.rows k = 0 := by
          rw [currentCount, List.countP_eq_zero]
          intro r hr
          rw [findCurrent_eq_none hfc r hr]
          simp
        simp [hzero]
      · have := hinv k
        simp [hkk]
        omega
    | some cur =>
      rw [hfc] at h
      simp only at h
      by_cases hh : cur.row_hash = compute_hash row attrFields
      · rw [if_pos hh] at h
        simp only [Option.some.injEq, Prod.mk.injEq] at h
        obtain ⟨ht2, _⟩ := h
        subst ht2
        exact hinv
      · rw [if_neg hh] at h
        simp only [Option.some.injEq, Prod.mk.injEq] at h
        obtain ⟨ht2, _⟩ := h
        subst ht2
        obtain ⟨hmem, hcur⟩ := findCurrent_eq_some hfc
        intro k
        rw [currentCount_insertNewRow]
        by_cases hkk : k = kv
        · subst hkk
          rw [currentCount_closeRow_eq_zero now (hinv k) hmem hcur]
          simp
        · have h1 := currentCount_closeRow_le t.rows cur.id now k
          have h2 := hinv k
          simp [hkk]
          omega

/-- Processing one record never removes rows and adds exactly as many rows
as it adds to the `inserted` counter. -/
theorem upsertOne_length {key_fields attrFields : List String}
    {now : String} {t : Scd2Table} {c : Nat} {row : Rec} {t2 : Scd2Table}
    {c2 : Nat}
    (h : upsertOne key_fields attrFields now (t, c) row = some (t2, c2)) :
    t2.rows.length + c = t.rows.length + c2 := by
  unfold upsertOne at h
  cases hkv : keyValsOf row key_fields with
  | none => rw [hkv] at h; cases h
  | some kv =>
    rw [hkv] at h
    simp only at h
    cases hfc : findCurrent t.rows kv with
    | none =>
      rw [hfc] at h
      simp only [Option.some.injEq, Prod.mk.injEq] at h
      obtain ⟨ht2, hc2⟩ := h
      subst ht2; subst hc2
      simp [insertNewRow]
      omega
    | some cur =>
      rw [hfc] at h
      simp only at h
      by_cases hh : cur.row_hash = compute_hash row attrFields
      · rw [if_pos hh] at h
        simp only [Option.some.injEq, Prod.mk.injEq] at h
        obtain ⟨ht2, hc2⟩ := h
        subst ht2; subst hc2
        rfl
      · rw [if_neg hh] at h
        simp only [Option.some.injEq, Prod.mk.injEq] at h
        obtain ⟨ht2, hc2⟩ := h
        subst ht2; subst hc2
        simp [insertNewRow, closeRow]
        omega

/-- Folding the per-record step over a batch preserves the invariant. -/
theorem foldlM_upsertOne_preserves {key_fields attrFields : List String}
    {now : String} :
    ∀ (records : List Rec) (t : Scd2Table) (c : Nat) (t2 : Scd2Table)
      (c2 : Nat),
      records.foldlM (upsertOne key_fields attrFields now) (t, c)
          = some (t2, c2) →
      atMostOneCurrent t → atMostOneCurrent t2 := by
  intro records
  induction records with
  | nil =>
    intro t c t2 c2 h hinv
    simp only [List.foldlM_nil, Option.pure_def, Option.some.injEq,
      Prod.mk.injEq] at h
    obtain ⟨ht2, _⟩ := h
    subst ht2
    exact hinv
  | cons r rs ih =>
    intro t c t2 c2 h hinv
    rw [List.foldlM_cons] at h
    cases hstep : upsertOne key_fields attrFields now (t, c) r with
    | none => rw [hstep] at h; cases h
    | some st =>
      rw [hstep] at h
      simp only [Option.bind_eq_bind, Option.some_bind] at h
      exact ih st.1 st.2 t2 c2 h (upsertOne_preserves hstep hinv)

/-- Folding the per-record step over a batch adds exactly as many rows as it
adds to the counter. -/
theorem foldlM_upsertOne_length {key_fields attrFields : List String}
    {now : String} :
    ∀ (records : List Rec) (t : Scd2Table) (c : Nat) (t2 : Scd2Table)
      (c2 : Nat),
      records.foldlM (upsertOne key_fields attrFields now) (t, c)
          = some (t2, c2) →
      t2.rows.length + c = t.rows.length + c2 := by
  intro records
  induction records with
  | nil =>
    intro t c t2 c2 h
    simp only [List.foldlM_nil, Option.pure_def, Option.some.injEq,
      Prod.mk.injEq] at h
    obtain ⟨ht2, hc2⟩ := h
    subst ht2; subst hc2
    rfl
  | cons r rs ih =>
    intro t c t2 c2 h
    rw [List.foldlM_cons] at h
    cases hstep : upsertOne key_fields attrFields now (t, c) r with
    | none => rw [hstep] at h; cases h
    | some st =>
      rw [hstep] at h
      simp only [Option.bind_eq_bind, Option.some_bind] at h
      have h1 := upsertOne_length hstep
      have h2 := ih st.1 st.2 t2 c2 h
      omega

/-- A single `upsert_scd2` call preserves the invariant. -/
theorem upsert_scd2_preserves {tbl : Scd2Table} {records : List Rec}
    {key_fields attribute_fields : List String} {now : String}
    {t2 : Scd2Table} {n : Nat}
    (h : upsert_scd2 tbl records key_fields attribute_fields now
        = some (t2, n))
    (hinv : atMostOneCurrent tbl) : atMostOneCurrent t2 := by
  unfold upsert_scd2 at h
  cases records with
  | nil =>
    simp only [Option.some.injEq, Prod.mk.injEq] at h
    obtain ⟨ht2, _⟩ := h
    subst ht2
    exact hinv
  | cons r0 rs =>
    simp only at h
    exact foldlM_upsertOne_preserves _ _ _ _ _ h hinv

/-- A sequence of calls from a table satisfying the invariant keeps it. -/
theorem applyCalls_preserves (key_fields : List String) :
    ∀ (calls : List UpsertCall) (t tbl : Scd2Table),
      applyCalls key_fields t calls = some tbl →
      atMostOneCurrent t → atMostOneCurrent tbl := by
  intro calls
  induction calls with
  | nil =>
    intro t tbl h hinv
    simp only [applyCalls, Option.some.injEq] at h
    subst h
    exact hinv
  | cons c cs ih =>
    intro t tbl h hinv
    unfold applyCalls at h
    cases hcall : upsert_scd2 t c.records key_fields c.attribute_fields
        c.now with
    | none => rw [hcall] at h; cases h
    | some st =>
      rw [hcall] at h
      simp only at h
      exact ih st.1 tbl h (upsert_scd2_preserves hcall hinv)

/-- The freshly created table satisfies the invariant. -/
theorem empty_at_most_one_current : atMostOneCurrent Scd2Table.empty := by
  intro k
  simp [Scd2Table.empty, currentCount]

/-! ## Claim theorems -/

/-- C1: for every natural key and every in-process sequence of `upsert_scd2`
calls against a table (created empty, with its key schema fixed at
creation), the table after each call has at most one current row per key:
the point after call `i` is the result of applying the length-`i` prefix,
and every prefix is itself a sequence of calls, so quantifying over all call
lists covers every intermediate point.  The mechanism is visible in
`upsertOne`: a new current row is only inserted after the previously current
row (if any) is closed (`is_current` set to 0 and `valid_to` set to the
call's timestamp) inside the same record step. -/
theorem upsert_scd2_seq_at_most_one_current (key_fields : List String)
    (calls : List UpsertCall) (tbl : Scd2Table)
    (h : applyCalls key_fields Scd2Table.empty calls = some tbl) :
    atMostOneCurrent tbl :=
  applyCalls_preserves key_fields calls Scd2Table.empty tbl h
    empty_at_most_one_current

/-- Witness for C1: two concrete calls upserting key K with value A and then
value B; the resulting table satisfies the invariant. -/
theorem upsert_scd2_seq_at_most_one_current_witness :
    atMostOneCurrent
      { rows := [{ id := 1, keyVals := ["K"], attrVals := [some "A"],
                   valid_from := "T1", valid_to := "T2", is_current := 0,
                   row_hash := "A" },
                 { id := 2, keyVals := ["K"], attrVals := [some "B"],
                   valid_from := "T2", valid_to := farFuture,
                   is_current := 1, row_hash := "B" }],
        nextId := 3 } :=
  upsert_scd2_seq_at_most_one_current ["k"]
    [⟨[[("k", some "K"), ("a", some "A")]], ["a"], "T1"⟩,
     ⟨[[("k", some "K"), ("a", some "B")]], ["a"], "T2"⟩]
    _ (by decide)

/-- Two records of one batch sharing the natural key K with different
attribute values. -/
def dupKeyRecA : Rec := [("k", some "K"), ("a", some "A")]

/-- Second record for the same key with a different attribute value. -/
def dupKeyRecB : Rec := [("k", some "K"), ("a", some "B")]

/-- Modelled from the claim wording for comparison: the distinct natural
keys occurring in a batch (the claim counts one logical change per distinct
key, however many records carry the key). -/
def distinctKeys (records : List Rec) (key_fields : List String) :
    List (List String) :=
  (records.filterMap fun r => keyValsOf r key_fields).dedup

/-- Counterexample to C4: a batch holding the same key twice with two
different attribute values.  Both records are new-or-changed, the batch has
exactly one distinct (changed) natural key, yet the call returns 2 — the
count is per changed record, not per distinct changed key. -/
theorem upsert_scd2_count_counterexample :
    (upsert_scd2 Scd2Table.empty [dupKeyRecA, dupKeyRecB] ["k"] ["a"]
        "T1").map Prod.snd = some 2 ∧
      (distinctKeys [dupKeyRecA, dupKeyRecB] ["k"]).length = 1 := by
  decide

/-- C4 (amended): `upsert_scd2` returns the number of rows the call
inserted — one per record that was new or had a changed hash.  This equals
the count of changed keys only when each natural key occurs at most once in
the batch; a key occurring several times with several changes is counted
once per change. -/
theorem upsert_scd2_count_inserted_rows {tbl : Scd2Table}
    {records : List Rec} {key_fields attribute_fields : List String}
    {now : String} {t2 : Scd2Table} {n : Nat}
    (h : upsert_scd2 tbl records key_fields attribute_fields now
        = some (t2, n)) :
    t2.rows.length = tbl.rows.length + n := by
  unfold upsert_scd2 at h
  cases records with
  | nil =>
    simp only [Option.some.injEq, Prod.mk.injEq] at h
    obtain ⟨ht2, hn⟩ := h
    subst ht2; subst hn
    rfl
  | cons r0 rs =>
    simp only at h
    have := foldlM_upsertOne_length _ _ _ _ _ h
    omega

/-- Witness for the amended C4: the duplicate-key batch inserts two rows
into the empty table and returns 2. -/
theorem upsert_scd2_count_inserted_rows_witness :
    ({ rows := [{ id := 1, keyVals := ["K"], attrVals := [some "A"],
                  valid_from := "T1", valid_to := "T1", is_current := 0,
                  row_hash := "A" },
                { id := 2, keyVals := ["K"], attrVals := [some "B"],
                  valid_from := "T1", valid_to := farFuture,
                  is_current := 1, row_hash := "B" }],
       nextId := 3 } : Scd2Table).rows.length
      = Scd2Table.empty.rows.length + 2 :=
  @upsert_scd2_count_inserted_rows Scd2Table.empty [dupKeyRecA, dupKeyRecB]
    ["k"] ["a"] "T1"
    { rows := [{ id := 1, keyVals := ["K"], attrVals := [some "A"],
                 valid_from := "T1", valid_to := "T1", is_current := 0,
                 row_hash := "A" },
               { id := 2, keyVals := ["K"], attrVals := [some "B"],
                 valid_from := "T1", valid_to := farFuture,
                 is_current := 1, row_hash := "B" }],
      nextId := 3 } 2 (by decide)

/-- First record of the hash-collision pair: attribute values "ab", "c". -/
def collideRecA : Rec := [("k", some "K"), ("a1", some "ab"), ("a2", some "c")]

/-- Second record of the hash-collision pair: attribute values "a", "bc",
different from the first record's but with the same separator-free
concatenation "abc". -/
def collideRecB : Rec := [("k", some "K"), ("a1", some "a"), ("a2", some "bc")]

/-- The table after upserting the first collision record into an empty
table. -/
def collisionTable : Scd2Table :=
  { rows := [{ id := 1, keyVals := ["K"], attrVals := [some "ab", some "c"],
               valid_from := "T1", valid_to := farFuture, is_current := 1,
               row_hash := "abc" }],
    nextId := 2 }

/-- C10: the content hash is not injective on attribute values.  The digest
input concatenates the attribute values with no separator, so the records
("ab", "c") and ("a", "bc") — same key, different attribute values — hash
identically; after upserting the first, upserting the second performs no
write (the table is unchanged and the returned count is 0), so its changed
attribute values are never recorded as a new version. -/
theorem compute_hash_not_injective :
    compute_hash collideRecA ["a1", "a2"]
        = compute_hash collideRecB ["a1", "a2"] ∧
      recGet collideRecA "a1" ≠ recGet collideRecB "a1" ∧
      recGet collideRecA "a2" ≠ recGet collideRecB "a2" ∧
      keyValsOf collideRecA ["k"] = keyValsOf collideRecB ["k"] ∧
      upsert_scd2 Scd2Table.empty [collideRecA] ["k"] ["a1", "a2"] "T1"
        = some (collisionTable, 1) ∧
      upsert_scd2 collisionTable [collideRecB] ["k"] ["a1", "a2"] "T2"
        = some (collisionTable, 0) := by
  decide

/-- Joining a one-element list of strings is that string. -/
theorem join_singleton (s : String) : String.join [s] = s := by
  simp [String.join]

/-- A single-field content hash is the field's value. -/
theorem compute_hash_single {r : Rec} {aField : String} {v : String}
    (h : recGet r aField = some v) : compute_hash r [aField] = v := by
  simp [compute_hash, h, join_singleton]

/-- A table with no rows for a key has no current row for it. -/
theorem findCurrent_eq_none_of_fresh {rows : List Scd2Row}
    {kv : List String} (h : ∀ row ∈ rows, row.keyVals ≠ kv) :
    findCurrent rows kv = none := by
  apply findCurrent_eq_none_of_all
  intro r hr
  simp [isCurrentFor]
  intro hk
  exact absurd hk (h r hr)

/-- Closing distributes over list append. -/
theorem closeRow_append (xs ys : List Scd2Row) (rid : Nat) (now : String) :
    closeRow (xs ++ ys) rid now = closeRow xs rid now ++ closeRow ys rid now := by
  simp [closeRow]

/-- Closing preserves every row's key columns, so rows of other keys stay
invisible to a key filter. -/
theorem filter_key_closeRow_nil {rows : List Scd2Row} {kv : List String}
    (h : ∀ row ∈ rows, row.keyVals ≠ kv) (rid : Nat) (now : String) :
    (closeRow rows rid now).filter (fun row => decide (row.keyVals = kv))
      = [] := by
  rw [List.filter_eq_nil_iff]
  intro r' hr'
  obtain ⟨r, hr, hmap⟩ := List.mem_map.mp hr'
  by_cases hid : r.id = rid
  · rw [if_pos hid] at hmap
    subst hmap
    simp
    exact h r hr
  · rw [if_neg hid] at hmap
    subst hmap
    simp
    exact h r hr

/-- A one-record batch reduces to a single record step (with the
attribute-field defaulting applied). -/
theorem upsert_scd2_singleton (tbl : Scd2Table) (r : Rec)
    (key_fields attribute_fields : List String) (now : String) :
    upsert_scd2 tbl [r] key_fields attribute_fields now =
      upsertOne key_fields
        (if attribute_fields.isEmpty then defaultAttrFields r key_fields
         else attribute_fields) now (tbl, 0) r := by
  unfold upsert_scd2
  simp only [List.foldlM_cons, List.foldlM_nil, bind_pure]

/-- C3: the upsert is idempotent per record.  With no current row for the
record's key, the first application inserts exactly one row and returns 1;
the second application of the identical record finds the row it inserted,
whose hash equals the recomputed hash, performs no write (the table is
returned unchanged) and contributes nothing to the count. -/
theorem upsert_scd2_idempotent (tbl : Scd2Table) (r : Rec)
    (key_fields attribute_fields : List String) (kv : List String)
    (hk : keyValsOf r key_fields = some kv)
    (hfresh : findCurrent tbl.rows kv = none) (now1 now2 : String) :
    ∃ t1 : Scd2Table,
      upsert_scd2 tbl [r] key_fields attribute_fields now1 = some (t1, 1) ∧
      t1.rows.length = tbl.rows.length + 1 ∧
      upsert_scd2 t1 [r] key_fields attribute_fields now2 = some (t1, 0) := by
  simp only [upsert_scd2_singleton]
  set A := if attribute_fields.isEmpty then defaultAttrFields r key_fields
    else attribute_fields with hA
  refine ⟨insertNewRow tbl kv (A.map (recGet r)) now1 (compute_hash r A),
    ?_, ?_, ?_⟩
  · unfold upsertOne
    rw [hk]
    simp only
    rw [hfresh]
  · simp [insertNewRow]
  · unfold upsertOne
    rw [hk]
    simp only
    have hfind : findCurrent
        (insertNewRow tbl kv (A.map (recGet r)) now1
          (compute_hash r A)).rows kv
        = some { id := tbl.nextId, keyVals := kv,
                 attrVals := A.map (recGet r), valid_from := now1,
                 valid_to := farFuture, is_current := 1,
                 row_hash := compute_hash r A } := by
      unfold insertNewRow
      rw [findCurrent_append_singleton]
      rw [if_pos]
      simp [isCurrentFor]
    rw [hfind]
    simp

/-- Witness for C3: key K inserted once into the empty table; the identical
record applied again is a no-op returning 0. -/
theorem upsert_scd2_idempotent_witness :
    ∃ t1 : Scd2Table,
      upsert_scd2 Scd2Table.empty [[("k", some "K"), ("a", some "A")]]
          ["k"] ["a"] "T1" = some (t1, 1) ∧
      t1.rows.length = Scd2Table.empty.rows.length + 1 ∧
      upsert_scd2 t1 [[("k", some "K"), ("a", some "A")]]
          ["k"] ["a"] "T2" = some (t1, 0) :=
  upsert_scd2_idempotent Scd2Table.empty [("k", some "K"), ("a", some "A")]
    ["k"] ["a"] ["K"] (by decide) (by decide) "T1" "T2"

/-- C2: starting from a table with no rows for key K, upserting K with a
single attribute value A and then (at `now2`) with a different value B
leaves exactly two rows for K: the first closed (`is_current = 0`,
`valid_to = now2`, the timestamp of the second call) and the second current
(`is_current = 1`, `valid_to` the far-future sentinel). -/
theorem upsert_scd2_two_versions
    (tbl : Scd2Table) (key_fields : List String) (aField : String)
    (r1 r2 : Rec) (kv : List String) (vA vB : String)
    (hk1 : keyValsOf r1 key_fields = some kv)
    (hk2 : keyValsOf r2 key_fields = some kv)
    (ha1 : recGet r1 aField = some vA)
    (ha2 : recGet r2 aField = some vB)
    (hAB : vA ≠ vB)
    (hfresh : ∀ row ∈ tbl.rows, row.keyVals ≠ kv)
    (now1 now2 : String) (t1 t2 : Scd2Table) (n1 n2 : Nat)
    (h1 : upsert_scd2 tbl [r1] key_fields [aField] now1 = some (t1, n1))
    (h2 : upsert_scd2 t1 [r2] key_fields [aField] now2 = some (t2, n2)) :
    t2.rows.filter (fun row => decide (row.keyVals = kv)) =
      [{ id := tbl.nextId, keyVals := kv, attrVals := [some vA],
         valid_from := now1, valid_to := now2, is_current := 0,
         row_hash := vA },
       { id := tbl.nextId + 1, keyVals := kv, attrVals := [some vB],
         valid_from := now2, valid_to := farFuture, is_current := 1,
         row_hash := vB }] := by
  have hfcn : findCurrent tbl.rows kv = none :=
    findCurrent_eq_none_of_fresh hfresh
  have hhash1 : compute_hash r1 [aField] = vA := compute_hash_single ha1
  have hhash2 : compute_hash r2 [aField] = vB := compute_hash_single ha2
  rw [upsert_scd2_singleton] at h1 h2
  simp only [List.isEmpty_cons, Bool.false_eq_true, if_false] at h1 h2
  unfold upsertOne at h1
  rw [hk1] at h1
  simp only at h1
  rw [hfcn] at h1
  simp only [Option.some.injEq, Prod.mk.injEq] at h1
  obtain ⟨ht1, hn1⟩ := h1
  unfold upsertOne at h2
  rw [hk2] at h2
  simp only at h2
  rw [← ht1] at h2
  have hfind1 : findCurrent
      (insertNewRow tbl kv ([aField].map (recGet r1)) now1
        (compute_hash r1 [aField])).rows kv
      = some { id := tbl.nextId, keyVals := kv,
               attrVals := [aField].map (recGet r1), valid_from := now1,
               valid_to := farFuture, is_current := 1,
               row_hash := compute_hash r1 [aField] } := by
    unfold insertNewRow
    rw [findCurrent_append_singleton]
    rw [if_pos]
    simp [isCurrentFor]
  rw [hfind1] at h2
  simp only at h2
  rw [if_neg (by rw [hhash1, hhash2]; exact hAB)] at h2
  simp only [Option.some.injEq, Prod.mk.injEq] at h2
  obtain ⟨ht2, hn2⟩ := h2
  rw [← ht2]
  unfold insertNewRow
  simp only
  rw [List.filter_append]
  have hclose : closeRow
      (tbl.rows ++
        [{ id := tbl.nextId, keyVals := kv,
           attrVals := [aField].map (recGet r1), valid_from := now1,
           valid_to := farFuture, is_current := 1,
           row_hash := compute_hash r1 [aField] }]) tbl.nextId now2
      = closeRow tbl.rows tbl.nextId now2 ++
        [{ id := tbl.nextId, keyVals := kv,
           attrVals := [aField].map (recGet r1), valid_from := now1,
           valid_to := now2, is_current := 0,
           row_hash := compute_hash r1 [aField] }] := by
    rw [closeRow_append]
    congr 1
    simp [closeRow]
  rw [hclose, List.filter_append]
  rw [filter_key_closeRow_nil hfresh]
  have hmap1 : [aField].map (recGet r1) = [some vA] := by simp [ha1]
  have hmap2 : [aField].map (recGet r2) = [some vB] := by simp [ha2]
  simp [hmap1, hmap2, hhash1, hhash2, insertNewRow]

/-- Witness for C2: concrete two-call run for key K with values A then B. -/
theorem upsert_scd2_two_versions_witness :
    ({ rows := [{ id := 1, keyVals := ["K"], attrVals := [some "A"],
                  valid_from := "T1", valid_to := "T2", is_current := 0,
                  row_hash := "A" },
                { id := 2, keyVals := ["K"], attrVals := [some "B"],
                  valid_from := "T2", valid_to := farFuture,
                  is_current := 1, row_hash := "B" }],
       nextId := 3 } : Scd2Table).rows.filter
        (fun row => decide (row.keyVals = ["K"])) =
      [{ id := 1, keyVals := ["K"], attrVals := [some "A"],
         valid_from := "T1", valid_to := "T2", is_current := 0,
         row_hash := "A" },
       { id := 2, keyVals := ["K"], attrVals := [some "B"],
         valid_from := "T2", valid_to := farFuture, is_current := 1,
         row_hash := "B" }] :=
  upsert_scd2_two_versions Scd2Table.empty ["k"] "a"
    [("k", some "K"), ("a", some "A")] [("k", some "K"), ("a", some "B")]
    ["K"] "A" "B" (by decide) (by decide) (by decide) (by decide)
    (by decide) (by decide) "T1" "T2"
    { rows := [{ id := 1, keyVals := ["K"], attrVals := [some "A"],
                 valid_from := "T1", valid_to := farFuture, is_current := 1,
                 row_hash := "A" }],
      nextId := 2 }
    { rows := [{ id := 1, keyVals := ["K"], attrVals := [some "A"],
                 valid_from := "T1", valid_to := "T2", is_current := 0,
                 row_hash := "A" },
               { id := 2, keyVals := ["K"], attrVals := [some "B"],
                 valid_from := "T2", valid_to := farFuture,
                 is_current := 1, row_hash := "B" }],
      nextId := 3 } 1 1 (by decide) (by decide)

/-! ## Scheduler claim theorems -/

/-- The instant of the same UTC day as `now`, at hour `h` and minute `m`
(what `datetime.combine(now.date(), time(h, m))` denotes). -/
def todayAt (now : Instant) (h m : Nat) : Instant :=
  now.fdiv usPerDay * usPerDay + (h * 3600 + m * 60 : Nat) * 1000000

/-- C6: for a daily policy at a valid time of day, the next run is today at
that time when that instant is strictly after `now`, and tomorrow at that
time when it is less than or equal to `now` — in particular, exact equality
rolls to tomorrow. -/
theorem compute_next_run_daily (sched : ScheduleDict) (ce : Option CronEval)
    (now : Instant) (h m : Nat) (hh : h < 24) (hm : m < 60)
    (hty : sched.type = some "daily") (htime : sched.time = some (h, m)) :
    (now < todayAt now h m →
      compute_next_run sched ce now = .ok (todayAt now h m)) ∧
    (todayAt now h m ≤ now →
      compute_next_run sched ce now = .ok (todayAt now h m + usPerDay)) := by
  unfold compute_next_run
  rw [hty, htime]
  simp only [Option.getD_some]
  rw [if_neg (by decide), if_pos trivial]
  have hpt : parse_time_us (h, m)
      = some (((h * 3600 + m * 60 : Nat) : Int) * 1000000) := by
    unfold parse_time_us
    rw [if_pos ⟨hh, hm⟩]
  simp only [hpt]
  unfold todayAt
  constructor
  · intro hlt
    split
    · rename_i hcond
      exact absurd hlt (not_lt.mpr hcond)
    · rfl
  · intro hle
    split
    · rfl
    · rename_i hcond
      exact absurd hle hcond

/-- The daily-at-02:00 policy of the specification's examples. -/
def dailyTwoAM : ScheduleDict :=
  { type := some "daily", seconds := none, time := some (2, 0),
    weekday := none, expression := none }

/-- Witness for C6: at 01:00 UTC of day 20000 the next daily-02:00 run is
the same day at 02:00 (strictly-after case). -/
theorem compute_next_run_daily_witness :
    compute_next_run dailyTwoAM none (20000 * usPerDay + 3600 * usPerSecond)
      = .ok (todayAt (20000 * usPerDay + 3600 * usPerSecond) 2 0) :=
  (compute_next_run_daily dailyTwoAM none
      (20000 * usPerDay + 3600 * usPerSecond) 2 0 (by decide) (by decide)
      rfl rfl).1 (by decide)

/-- C9: computing the next run of a cron policy in a process without a
cron-expression evaluator raises (it returns an error, never a timestamp),
whatever `now` is and whatever the expression (including its default). -/
theorem cron_without_evaluator_errors (sched : ScheduleDict)
    (hty : sched.type = some "cron") (now : Instant) :
    compute_next_run sched none now =
      .error "croniter library is required for cron schedules" := by
  unfold compute_next_run
  rw [hty]
  simp only [Option.getD_some]
  rw [if_neg (by decide), if_neg (by decide), if_neg (by decide),
    if_pos trivial]

/-- A cron schedule dict without an explicit expression. -/
def cronSched : ScheduleDict :=
  { type := some "cron", seconds := none, time := none, weekday := none,
    expression := none }

/-- Witness for C9: the concrete cron policy errors at a concrete instant. -/
theorem cron_without_evaluator_errors_witness :
    compute_next_run cronSched none 12345 =
      .error "croniter library is required for cron schedules" :=
  cron_without_evaluator_errors cronSched rfl 12345

/-- A loadable job whose interval policy has `seconds = 0` (nothing
validates the configured seconds). -/
def zeroIntervalJob : ScheduledJob :=
  { name := "a", args := [],
    schedule := { type := some "interval", seconds := some 0, time := none,
                  weekday := none, expression := none },
    next_run := 0, description := "", enabled := true, depends_on := [] }

/-- Counterexample to C5: with an interval policy of 0 seconds the
recomputed `next_run` equals `now`, so the job stays due: the first
`due_jobs` call at instant 0 returns the job and leaves the scheduler state
unchanged, hence the immediately following second call at the same instant
is the identical application and returns the very same job again. -/
theorem due_jobs_repeat_counterexample :
    due_jobs none [zeroIntervalJob] 0
        = .ok ([zeroIntervalJob], [zeroIntervalJob]) ∧
      (due_jobs none [zeroIntervalJob] 0 >>= fun p => due_jobs none p.2 0)
        = .ok ([zeroIntervalJob], [zeroIntervalJob]) := by
  decide

/-- Inverting a successful `mark_executed`. -/
theorem mark_executed_ok {ce : Option CronEval} {now : Instant}
    {j j2 : ScheduledJob} (h : mark_executed ce now j = .ok j2) :
    ∃ t, compute_next_run j.schedule ce now = .ok t ∧
      j2 = { j with next_run := t } := by
  unfold mark_executed at h
  cases hc : compute_next_run j.schedule ce now with
  | error e => rw [hc] at h; cases h
  | ok t =>
    rw [hc] at h
    simp only [Except.ok.injEq] at h
    exact ⟨t, rfl, h.symm⟩

/-- Inverting a successful `List.mapM` over `Except`: every element of the
output comes from an element of the input. -/
theorem mapM_ok_mem {α β : Type} {f : α → Except String β} :
    ∀ {l : List α} {l2 : List β}, l.mapM f = .ok l2 →
      ∀ y ∈ l2, ∃ x ∈ l, f x = .ok y := by
  intro l
  induction l with
  | nil =>
    intro l2 h y hy
    rw [List.mapM_nil] at h
    cases h
    cases hy
  | cons a as ih =>
    intro l2 h y hy
    rw [List.mapM_cons] at h
    cases ha : f a with
    | error e => rw [ha] at h; cases h
    | ok b =>
      rw [ha] at h
      cases has : as.mapM f with
      | error e =>
        rw [has] at h
        cases h
      | ok bs =>
        rw [has] at h
        have h2 : (b :: bs : List β) = l2 := Except.ok.inj h
        subst h2
        rcases List.mem_cons.mp hy with hy | hy
        · exact ⟨a, List.mem_cons_self a as, by rw [ha, hy]⟩
        · obtain ⟨x, hx, hfx⟩ := ih has y hy
          exact ⟨x, List.mem_cons_of_mem a hx, hfx⟩

/-- Bind on a failed `Except` computation short-circuits. -/
theorem except_bind_error {α β : Type} (e : String)
    (k : α → Except String β) : (Except.error e >>= k) = Except.error e := rfl

/-- Bind on a successful `Except` computation continues. -/
theorem except_bind_ok {α β : Type} (a : α) (k : α → Except String β) :
    (Except.ok a >>= k) = k a := rfl

/-- Inverting a successful `due_jobs` call: the returned list is the list of
updated due jobs. -/
theorem due_jobs_ok {ce : Option CronEval} {jobs : List ScheduledJob}
    {now : Instant} {r1 s1 : List ScheduledJob}
    (h : due_jobs ce jobs now = .ok (r1, s1)) :
    (jobs.filter (fun j => j.due now)).mapM (mark_executed ce now)
      = .ok r1 := by
  unfold due_jobs at h
  dsimp only at h
  cases hm1 : (jobs.filter (fun j => j.due now)).mapM
      (mark_executed ce now) with
  | error e =>
    rw [hm1, except_bind_error] at h
    cases h
  | ok l =>
    rw [hm1, except_bind_ok] at h
    cases hm2 : jobs.mapM (fun j =>
        if j.due now then mark_executed ce now j else .ok j) with
    | error e =>
      rw [hm2, except_bind_error] at h
      cases h
    | ok l2 =>
      rw [hm2, except_bind_ok] at h
      have hpair := Except.ok.inj h
      have hr : l = r1 := congrArg Prod.fst hpair
      rw [hr]

/-- C5 (amended): a job returned by `due_jobs(now)` is not returned by an
immediately following second call at the same `now`, provided each job's
policy recomputes a `next_run` strictly after `now` (true for daily, weekly
and positive-interval policies; false for interval with seconds ≤ 0 and for
unrecognized schedule types, which reset `next_run` to `now`).  Every job in
the returned list carries its recomputed `next_run`, so it is no longer due
at `now`, and the second call only ever selects (and returns updated copies
of) state entries still due at `now`. -/
theorem due_jobs_no_repeat_of_future (ce : Option CronEval)
    (jobs : List ScheduledJob) (now : Instant) (r1 s1 : List ScheduledJob)
    (h1 : due_jobs ce jobs now = .ok (r1, s1))
    (hfut : ∀ j ∈ jobs, ∀ t,
      compute_next_run j.schedule ce now = .ok t → now < t) :
    ∀ j ∈ r1, j.due now = false ∧
      j ∉ s1.filter (fun x => x.due now) := by
  intro j hj
  have hready := due_jobs_ok h1
  obtain ⟨x, hx, hmark⟩ := mapM_ok_mem hready j hj
  obtain ⟨t, hct, hjj⟩ := mark_executed_ok hmark
  have hxj : x ∈ jobs := (List.mem_filter.mp hx).1
  have hnt : now < t := hfut x hxj t hct
  have hdue : j.due now = false := by
    subst hjj
    exact decide_eq_false (not_le.mpr hnt)
  refine ⟨hdue, ?_⟩
  intro hmem
  have hd2 := (List.mem_filter.mp hmem).2
  rw [hdue] at hd2
  cases hd2

/-- A loadable job with the default five-minute interval policy. -/
def interval300Job : ScheduledJob :=
  { name := "a", args := [],
    schedule := { type := some "interval", seconds := some 300,
                  time := none, weekday := none, expression := none },
    next_run := 0, description := "", enabled := true, depends_on := [] }

/-- Witness for the amended C5: the five-minute-interval job claimed at
instant 0 comes back with `next_run` 300 seconds later, is no longer due at
0, and is not among the still-due state entries. -/
theorem due_jobs_no_repeat_of_future_witness :
    ({ interval300Job with next_run := 300000000 } : ScheduledJob).due 0
        = false ∧
      ({ interval300Job with next_run := 300000000 } : ScheduledJob) ∉
        ([{ interval300Job with next_run := 300000000 }] :
            List ScheduledJob).filter (fun x => x.due 0) :=
  due_jobs_no_repeat_of_future none [interval300Job] 0
    [{ interval300Job with next_run := 300000000 }]
    [{ interval300Job with next_run := 300000000 }]
    (by decide)
    (by
      intro j hj t ht
      simp only [List.mem_singleton] at hj
      subst hj
      have hv : compute_next_run interval300Job.schedule none 0
          = .ok 300000000 := by decide
      rw [hv] at ht
      have ht2 := Except.ok.inj ht
      subst ht2
      decide)
    { interval300Job with next_run := 300000000 }
    (List.mem_singleton.mpr rfl)

/-- The loaded jobs carry exactly the names of the enabled entries, in
order. -/
theorem from_file_entries_names (loadNow : Instant) :
    ∀ (entries : List ScheduleEntry) (jobs : List ScheduledJob),
      from_file_entries loadNow entries = .ok jobs →
      jobs.map (fun j => j.name) =
        (entries.filter fun e => e.enabled.getD true).filterMap
          (fun e => e.name) := by
  intro entries
  induction entries with
  | nil =>
    intro jobs h
    unfold from_file_entries at h
    have hj := Except.ok.inj h
    rw [← hj]
    rfl
  | cons e es ih =>
    intro jobs h
    unfold from_file_entries at h
    by_cases hen : (e.enabled.getD true) = false
    · rw [if_pos hen] at h
      rw [ih jobs h, List.filter_cons_of_neg (by simp [hen])]
    · rw [if_neg hen] at h
      have hen2 : (e.enabled.getD true) = true := by
        cases hb : e.enabled.getD true
        · exact absurd hb hen
        · rfl
      cases hname : e.name with
      | none => rw [hname] at h; cases h
      | some nm =>
        rw [hname] at h
        cases hrec : from_file_entries loadNow es with
        | error err => rw [hrec] at h; cases h
        | ok rest =>
          rw [hrec] at h
          simp only at h
          have hj := Except.ok.inj h
          rw [← hj]
          rw [List.map_cons, ih rest hrec,
            List.filter_cons_of_pos (by rw [hen2]),
            List.filterMap_cons_some hname]

/-- Every loaded job stems from an enabled entry of the source. -/
theorem from_file_member {loadNow : Instant} {entries : List ScheduleEntry}
    {jobs : List ScheduledJob}
    (h : from_file_entries loadNow entries = .ok jobs)
    {x : ScheduledJob} (hx : x ∈ jobs) :
    ∃ e ∈ entries, (e.enabled.getD true) = true ∧ e.name = some x.name := by
  have hnames := from_file_entries_names loadNow entries jobs h
  have hmem : x.name ∈ jobs.map (fun j => j.name) :=
    List.mem_map_of_mem _ hx
  rw [hnames] at hmem
  obtain ⟨e, he, hename⟩ := List.mem_filterMap.mp hmem
  obtain ⟨he1, he2⟩ := List.mem_filter.mp he
  exact ⟨e, he1, he2, hename⟩

/-- C7: entries with `enabled = false` are dropped at load time: the loaded
job set carries exactly the names of the enabled entries (so disabled
entries are not retained), and consequently every job ever returned by
`due_jobs` — at any instant — stems from an enabled entry. -/
theorem from_file_drops_disabled (loadNow : Instant)
    (entries : List ScheduleEntry) (jobs : List ScheduledJob)
    (h : from_file_entries loadNow entries = .ok jobs) :
    (jobs.map (fun j => j.name) =
      (entries.filter fun e => e.enabled.getD true).filterMap
        (fun e => e.name)) ∧
    ∀ (ce : Option CronEval) (now : Instant) (r s2 : List ScheduledJob),
      due_jobs ce jobs now = .ok (r, s2) →
      ∀ j ∈ r, ∃ e ∈ entries, (e.enabled.getD true) = true ∧
        e.name = some j.name := by
  refine ⟨from_file_entries_names loadNow entries jobs h, ?_⟩
  intro ce now r s2 hd j hj
  have hready := due_jobs_ok hd
  obtain ⟨x, hx, hmark⟩ := mapM_ok_mem hready j hj
  obtain ⟨t, hct, hjj⟩ := mark_executed_ok hmark
  have hxj : x ∈ jobs := (List.mem_filter.mp hx).1
  obtain ⟨e, he, hen, hname⟩ := from_file_member h hxj
  refine ⟨e, he, hen, ?_⟩
  rw [hname]
  subst hjj
  rfl

/-- A schedule entry named "a", enabled by default. -/
def entryA : ScheduleEntry :=
  { name := some "a", args := none, schedule := none, description := none,
    enabled := none, depends_on := none }

/-- A disabled schedule entry named "b". -/
def entryB : ScheduleEntry :=
  { name := some "b", args := none, schedule := none, description := none,
    enabled := some false, depends_on := none }

/-- Witness for C7: loading an enabled entry "a" and a disabled entry "b"
retains only "a". -/
theorem from_file_drops_disabled_witness :
    ([{ name := "a", args := [], schedule := defaultSchedule, next_run := 0,
        description := "", enabled := true, depends_on := [] }] :
      List ScheduledJob).map (fun j => j.name) =
      (([entryA, entryB] : List ScheduleEntry).filter
        (fun e => e.enabled.getD true)).filterMap (fun e => e.name) :=
  (from_file_drops_disabled 0 [entryA, entryB]
    [{ name := "a", args := [], schedule := defaultSchedule, next_run := 0,
       description := "", enabled := true, depends_on := [] }]
    (by decide)).1

/-- An event written by `run_job` either predates the call or names the job
that was run. -/
theorem run_job_events {name : String} {b : JobBehavior}
    {hist : List HistoryEvent} {ev : HistoryEvent}
    (hev : ev ∈ run_job name b hist) : ev ∈ hist ∨ ev.job_name = name := by
  unfold run_job at hev
  cases b with
  | succeeds rc =>
    simp only [List.mem_append, List.mem_singleton] at hev
    rcases hev with (h | h) | h
    · exact Or.inl h
    · subst h; exact Or.inr rfl
    · subst h; exact Or.inr rfl
  | raises msg =>
    simp only [List.mem_append, List.mem_singleton] at hev
    rcases hev with (h | h) | h
    · exact Or.inl h
    · subst h; exact Or.inr rfl
    · subst h; exact Or.inr rfl

/-- C8: when the sequential dispatch loop reaches a due job whose name is
not in the registry (all jobs before it resolving), the lookup raises
immediately: the error escapes the cycle, the jobs after it do not run, and
no history event — in particular no `job_error` / failed event — is ever
appended for that job (any event bearing its name was already in the ledger
before the cycle). -/
theorem unknown_job_name_raises (registry : Registry) :
    ∀ (pre post : List ScheduledJob) (j : ScheduledJob)
      (hist : List HistoryEvent),
      (∀ p ∈ pre, (registry.lookup p.name).isSome = true) →
      registry.lookup j.name = none →
      ∃ hist2, run_once_dispatch registry (pre ++ j :: post) hist
          = (hist2, some ("Unknown job " ++ j.name)) ∧
        ∀ ev ∈ hist2, ev.job_name = j.name → ev ∈ hist := by
  intro pre
  induction pre with
  | nil =>
    intro post j hist hpre hj
    refine ⟨hist, ?_, fun ev hev _ => hev⟩
    simp only [List.nil_append]
    unfold run_once_dispatch get_job_callable
    rw [hj]
  | cons p ps ih =>
    intro post j hist hpre hj
    have hp : (registry.lookup p.name).isSome = true :=
      hpre p (List.mem_cons_self p ps)
    obtain ⟨b, hb⟩ := Option.isSome_iff_exists.mp hp
    have hpj : p.name ≠ j.name := by
      intro hEq
      rw [hEq, hj] at hb
      cases hb
    obtain ⟨hist2, hrun, hprop⟩ := ih post j (run_job p.name b hist)
      (fun q hq => hpre q (List.mem_cons_of_mem p hq)) hj
    refine ⟨hist2, ?_, ?_⟩
    · simp only [List.cons_append]
      unfold run_once_dispatch get_job_callable
      rw [hb]
      exact hrun
    · intro ev hev hevname
      have hin := hprop ev hev hevname
      rcases run_job_events hin with hcase | hcase
      · exact hcase
      · exact absurd (hcase.symm.trans hevname) hpj

/-- A one-entry registry holding only the job "good". -/
def regGood : Registry := [("good", JobBehavior.succeeds (some 5))]

/-- A due job whose name is registered. -/
def goodJob : ScheduledJob := { zeroIntervalJob with name := "good" }

/-- A due job whose name is not registered. -/
def badJob : ScheduledJob := { zeroIntervalJob with name := "bad" }

/-- Witness for C8: dispatching ["good", "bad"] stops at "bad" with the
configuration error; the ledger holds only events for "good". -/
theorem unknown_job_name_raises_witness :
    ∃ hist2, run_once_dispatch regGood ([goodJob] ++ badJob :: []) []
        = (hist2, some ("Unknown job " ++ badJob.name)) ∧
      ∀ ev ∈ hist2, ev.job_name = badJob.name → ev ∈ ([] : List HistoryEvent) :=
  unknown_job_name_raises regGood [goodJob] [] badJob []
    (by
      intro p hp
      simp only [List.mem_singleton] at hp
      subst hp
      decide)
    (by decide)

end Realre
